import Mathlib

/-!
Verification of the core logic of the linkedin-post-generator repository.

The Python sources (`pre_processing.py`, `few_shots.py`, `post_generator.py`)
are shallowly embedded below.  Python strings are modelled as `List Char`
(wrapped in `String` at the interfaces), the Python `set`/`dict` state of
`LinkedInPostCleaner` as lists with explicit insertion (insertion order
standing in for the unspecified set iteration order), and the stateful
methods as explicit state-passing functions.
-/

namespace LPG

/-! ## Python string primitives -/

/-- The ASCII part of Python's default `str.strip` whitespace set. -/
def isPySpace (c : Char) : Bool :=
  c == ' ' || c == '\t' || c == '\n' || c == '\r' || c == '\u000B' || c == '\u000C'

/-- Python `str.lstrip()` on a list of characters. -/
def lstrip (s : List Char) : List Char := s.dropWhile isPySpace

/-- Python `str.rstrip()` on a list of characters. -/
def rstrip (s : List Char) : List Char := (s.reverse.dropWhile isPySpace).reverse

/-- Python `str.strip()` on a list of characters. -/
def pstrip (s : List Char) : List Char := rstrip (lstrip s)

/-- ASCII lower-casing of one character (Python `str.lower`, ASCII range). -/
def lowerChar (c : Char) : Char :=
  if 'A' ≤ c && c ≤ 'Z' then Char.ofNat (c.toNat + 32) else c

/-- ASCII upper-casing of one character. -/
def upperChar (c : Char) : Char :=
  if 'a' ≤ c && c ≤ 'z' then Char.ofNat (c.toNat - 32) else c

/-- ASCII alphabetic test (the cased characters relevant to this corpus). -/
def isAsciiAlpha (c : Char) : Bool :=
  ('a' ≤ c && c ≤ 'z') || ('A' ≤ c && c ≤ 'Z')

/-- Python `str.lower()` on a list of characters. -/
def pyLower (s : List Char) : List Char := s.map lowerChar

/-- Helper for `pyTitle`: the flag records whether the previous character was
alphabetic (Python title-cases the first letter of every letter run). -/
def pyTitleAux : Bool → List Char → List Char
  | _, [] => []
  | prevAlpha, c :: rest =>
    if isAsciiAlpha c then
      (if prevAlpha then lowerChar c else upperChar c) :: pyTitleAux true rest
    else
      c :: pyTitleAux false rest

/-- Python `str.title()` on a list of characters. -/
def pyTitle (s : List Char) : List Char := pyTitleAux false s

/-- Does the second list start with the first one? -/
def lstarts : List Char → List Char → Bool
  | [], _ => true
  | _ :: _, [] => false
  | a :: as, b :: bs => a == b && lstarts as bs

/-- Python's substring test `needle in hay` on lists of characters. -/
def hasSub (needle : List Char) : List Char → Bool
  | [] => lstarts needle []
  | hay@(_ :: t) => lstarts needle hay || hasSub needle t

/-- Splitting on every whitespace character (helper for Python `str.split()`). -/
def splitOnWs : List Char → List (List Char)
  | [] => [[]]
  | c :: rest =>
    let r := splitOnWs rest
    if isPySpace c then [] :: r
    else
      match r with
      | [] => [[c]]
      | l :: ls => (c :: l) :: ls

/-- Python `str.split()` with no argument: split on whitespace runs,
dropping empty pieces. -/
def pyWords (s : List Char) : List (List Char) :=
  (splitOnWs s).filter (fun l => !l.isEmpty)

/-- Python `text.split('\n')` on a list of characters. -/
def splitNl : List Char → List (List Char)
  | [] => [[]]
  | c :: rest =>
    if c = '\n' then [] :: splitNl rest
    else
      match splitNl rest with
      | [] => [[c]]
      | l :: ls => (c :: l) :: ls

/-- Python `'\n'.join(...)` on lists of characters. -/
def joinNl : List (List Char) → List Char
  | [] => []
  | l :: ls =>
    match ls with
    | [] => l
    | _ :: _ => l ++ '\n' :: joinNl ls

/-- The effect of `re.sub(r'\n{3,}', '\n\n', text)`: every maximal run of
three or more newlines is collapsed to exactly two (the first `k - 2`
newlines of a run of `k ≥ 3` are dropped). -/
def collapseNl : List Char → List Char
  | [] => []
  | [c] => [c]
  | [c, d] => [c, d]
  | a :: b :: c :: rest =>
    if a = '\n' ∧ b = '\n' ∧ c = '\n' then collapseNl (b :: c :: rest)
    else a :: collapseNl (b :: c :: rest)

/-! ## pre_processing.py: clean_text -/

/-- Model of `LinkedInPostCleaner.clean_text` on character lists: strip each line,
rejoin with newlines, collapse runs of three or more newlines to two, strip
the whole text.  (The Python early return for falsy input coincides with the
general path on the empty string.) -/
def cleanChars (s : List Char) : List Char :=
  pstrip (collapseNl (joinNl ((splitNl s).map pstrip)))

/-- Model of `LinkedInPostCleaner.clean_text` from `pre_processing.py`. -/
def clean_text (text : String) : String := ⟨cleanChars text.data⟩

/-- Three consecutive newline characters (the pattern `\n{3,}` survives in a
text exactly when this string occurs in it). -/
def tripleNl : List Char := ['\n', '\n', '\n']

/-! ## pre_processing.py: language detection -/

/-- Word characters of the regex `\b` boundary, restricted to the ASCII
subset of `\w` (the corpus patterns are ASCII words). -/
def wordChar (c : Char) : Bool :=
  ('a' ≤ c && c ≤ 'z') || ('A' ≤ c && c ≤ 'Z') || ('0' ≤ c && c ≤ '9') || c == '_'

/-- The character right after a candidate word match must not be a word
character (the regex boundary after the alternation group). -/
def afterBoundary (w t : List Char) : Bool :=
  match t.drop w.length with
  | [] => true
  | d :: _ => !wordChar d

/-- Helper for `hasStandalone`: `prevWord` records whether the character just
before the current position is a word character. -/
def hasStandaloneAux (w : List Char) : Bool → List Char → Bool
  | _, [] => false
  | prevWord, c :: rest =>
    (!prevWord && lstarts w (c :: rest) && afterBoundary w (c :: rest)) ||
      hasStandaloneAux w (wordChar c) rest

/-- Occurrence of `w` (a non-empty all-letter word) as a standalone word,
i.e. the regex `\b(...w...)\b` patterns of `detect_language`. -/
def hasStandalone (w t : List Char) : Bool := hasStandaloneAux w false t

/-- First Roman-Urdu word alternation of `urdu_patterns`. -/
def urdu_words1 : List String :=
  ["aur", "hai", "hain", "ke", "ki", "ko", "se", "me", "mein", "bhi", "nahi",
   "kya", "kaise", "kab", "kahan", "yeh", "woh", "main", "ap", "aap", "bhai",
   "sahab", "ji"]

/-- Second Roman-Urdu word alternation of `urdu_patterns`. -/
def urdu_words2 : List String :=
  ["thora", "thore", "bht", "bhut", "bohot", "krna", "karna", "krte", "karte",
   "hoga", "hogi", "hoge", "wala", "wali", "vale"]

/-- Third Roman-Urdu word alternation of `urdu_patterns`. -/
def urdu_words3 : List String :=
  ["paisa", "paise", "rupay", "rupee", "lakh", "crore", "insha", "mashaallah",
   "alhamdulillah"]

/-- The Arabic/Urdu Unicode code-point range of `urdu_patterns`. -/
def inArabicRange (c : Char) : Bool :=
  0x0600 ≤ c.toNat && c.toNat ≤ 0x06FF

/-- Model of `LinkedInPostCleaner.detect_language`: lower-case the text, return
`"Urduish"` on the first pattern match and `"English"` otherwise. -/
def detect_language (text : String) : String :=
  let tl := pyLower text.data
  if tl.any inArabicRange ||
      (urdu_words1 ++ urdu_words2 ++ urdu_words3).any
        (fun w => hasStandalone w.data tl) then
    "Urduish"
  else
    "English"

/-- The fixed pattern set of claim C5, stated as a proposition over the
lower-cased text. -/
def urduPatternMatch (tl : List Char) : Prop :=
  (∃ c ∈ tl, inArabicRange c = true) ∨
  (∃ w ∈ urdu_words1 ++ urdu_words2 ++ urdu_words3, hasStandalone w.data tl = true)

/-! ## pre_processing.py: tag normalization state -/

/-- The mutable tag-discovery state of `LinkedInPostCleaner`: the
`discovered_tags` set (as a duplicate-free list in insertion order) and the
`tag_synonyms` dict (as an association list in insertion order). -/
structure CleanerState where
  discovered_tags : List String
  tag_synonyms : List (String × String)
deriving DecidableEq

/-- The state of a freshly constructed `LinkedInPostCleaner`. -/
def initState : CleanerState := ⟨[], []⟩

/-- The `self.max_tags` constant from `pre_processing.py`. -/
def max_tags : Nat := 15

/-- Python `dict` assignment `m[k] = v`: overwrite in place if the key is
present, append otherwise. -/
def dictInsert (m : List (String × String)) (k v : String) : List (String × String) :=
  if m.any (fun p => p.1 == k) then
    m.map (fun p => if p.1 == k then (k, v) else p)
  else m ++ [(k, v)]

/-- Python `dict` lookup `m.get(k)`. -/
def dictLookup (m : List (String × String)) (k : String) : Option String :=
  (m.find? (fun p => p.1 == k)).map (fun p => p.2)

/-- Python `set.add`: append the element unless already present. -/
def setAdd (l : List String) (x : String) : List String :=
  if l.contains x then l else l ++ [x]

/-- The hardcoded `merge_rules` table of `normalize_and_merge_tags`, in
dict insertion order. -/
def merge_rules : List (String × List String) :=
  [("Financial Planning", ["Budgeting", "Budget", "Finance", "Money Management"]),
   ("Investment", ["Investing", "Trading", "Portfolio", "Wealth"]),
   ("Cryptocurrency", ["Crypto", "Bitcoin", "Ethereum", "Blockchain"]),
   ("Career Development", ["Career Growth", "Professional Growth", "Job Search", "Career"]),
   ("Entrepreneurship", ["Startup", "Business", "Entrepreneur"]),
   ("Technology", ["Tech", "AI", "Software", "Digital"]),
   ("Marketing", ["Branding", "Social Media", "Content Marketing"]),
   ("Personal Growth", ["Self Development", "Learning", "Motivation"]),
   ("Leadership", ["Management", "Team Building"]),
   ("Networking", ["Professional Network", "Connections"]),
   ("Industry Insights", ["Market Trends", "Analysis"]),
   ("General", ["Pakistan", "Karachi", "Lahore", "Islamabad", "Location", "City"])]

/-- The canonical keys of `merge_rules`. -/
def canonical_tags : List String := merge_rules.map Prod.fst

/-- The rule loop of `normalize_and_merge_tags`: first rule whose synonym
list contains the tag exactly, or one of whose lower-cased synonyms occurs
inside the lower-cased tag, or whose main tag and the tag contain each other
(case-insensitively), wins. -/
def ruleScan (t : String) : List (String × List String) → Option String
  | [] => none
  | (main, syns) :: rest =>
    if syns.contains t ||
        syns.any (fun syn => hasSub (pyLower syn.data) (pyLower t.data)) then
      some main
    else if hasSub (pyLower main.data) (pyLower t.data) ||
        hasSub (pyLower t.data) (pyLower main.data) then
      some main
    else ruleScan t rest

/-- The `generic_tags` preference list of `find_most_similar_existing_tag`. -/
def generic_tags : List String :=
  ["Business", "Technology", "Career Development", "Personal Growth"]

/-- Model of `LinkedInPostCleaner.find_most_similar_existing_tag`: first discovered
tag sharing a whitespace-separated word with the new tag (case-insensitive),
else the first generic tag already discovered, else the first discovered tag,
else `"General"`. -/
def find_most_similar_existing_tag (st : CleanerState) (new_tag : String) : String :=
  let new_tag_lower := pyLower new_tag.data
  match st.discovered_tags.find? (fun existing =>
      (pyWords new_tag_lower).any (fun w =>
        (pyWords (pyLower existing.data)).any (fun v => v == w))) with
  | some existing => existing
  | none =>
    match generic_tags.find? (fun g => st.discovered_tags.contains g) with
    | some g => g
    | none => st.discovered_tags.headD "General"

/-- Model of `LinkedInPostCleaner.normalize_and_merge_tags`: title-case the stripped
raw tag, merge through `merge_rules` (recording the synonym mapping), else
accept it while under the 15-tag cap, else map to the most similar existing
tag. -/
def normalize_and_merge_tags (st : CleanerState) (new_tag : String) : String × CleanerState :=
  let t : String := ⟨pyTitle (pstrip new_tag.data)⟩
  match ruleScan t merge_rules with
  | some main => (main, { st with tag_synonyms := dictInsert st.tag_synonyms t main })
  | none =>
    if st.discovered_tags.length < max_tags then (t, st)
    else (find_most_similar_existing_tag st t, st)

/-- One raw tag through `normalize_and_merge_tags` followed by the caller's
`self.discovered_tags.add(normalized_tag)` (as both `discover_tags_from_text`
and `extract_tags_fallback` do). -/
def applyTag (st : CleanerState) (raw : String) : CleanerState :=
  let r := normalize_and_merge_tags st raw
  { r.2 with discovered_tags := setAdd r.2.discovered_tags r.1 }

/-- A whole sequence of raw tags fed through `normalize_and_merge_tags` with
the caller's add after each call. -/
def runTags (st : CleanerState) (raws : List String) : CleanerState :=
  raws.foldl applyTag st

/-- Concrete input refuting claim C1: fifteen fresh tags fill the set, then
`"Budget"` merges to the canonical tag `"Financial Planning"`, which the
caller adds as a sixteenth member. -/
def overflowTags : List String :=
  ["Q1", "Q2", "Q3", "Q4", "Q5", "Q6", "Q7", "Q8", "Q9", "Q10", "Q11", "Q12",
   "Q13", "Q14", "Q15", "Budget"]

/-! ## pre_processing.py: keyword fallback -/

/-- The `main_categories` keyword table of `extract_tags_fallback`, in dict
insertion order. -/
def main_categories : List (String × List String) :=
  [("Career Development", ["job", "career", "interview", "resume", "hiring", "work", "employment"]),
   ("Entrepreneurship", ["startup", "business", "entrepreneur", "company", "founder"]),
   ("Technology", ["tech", "ai", "software", "coding", "digital", "development"]),
   ("Investment", ["investment", "crypto", "trading", "portfolio", "wealth", "money"]),
   ("Marketing", ["marketing", "brand", "content", "social", "advertising"]),
   ("Personal Growth", ["growth", "learning", "motivation", "success", "development"]),
   ("Leadership", ["leadership", "management", "team", "leader", "mentor"]),
   ("Networking", ["network", "connection", "linkedin", "professional", "relationship"]),
   ("Education", ["education", "learning", "skill", "training", "course"]),
   ("Healthcare", ["health", "medical", "healthcare", "wellness", "fitness"]),
   ("Finance", ["financial", "budget", "planning", "economy", "banking"]),
   ("Sales", ["sales", "customer", "client", "revenue", "deal"]),
   ("Consulting", ["consulting", "advice", "strategy", "solution", "expert"]),
   ("Innovation", ["innovation", "creative", "idea", "solution", "breakthrough"]),
   ("Communication", ["communication", "presentation", "speaking", "writing", "message"])]

/-- Category score: how many of its keywords occur as substrings of the
lower-cased text. -/
def scoreOf (keywords : List String) (textLower : List Char) : Nat :=
  keywords.countP (fun keyword => hasSub keyword.data textLower)

/-- The best-match loop of `extract_tags_fallback`: running
`(best_match, max_score)` accumulator, replaced only on a strictly higher
score. -/
def pickBest (textLower : List Char) :
    List (String × List String) → String × Nat → String × Nat
  | [], acc => acc
  | (category, keywords) :: rest, (best, mx) =>
    let score := scoreOf keywords textLower
    if mx < score then pickBest textLower rest (category, score)
    else pickBest textLower rest (best, mx)

/-- Model of `LinkedInPostCleaner.extract_tags_fallback`: keyword scoring with default
`"Business"`, then the same normalization and add as the LLM path. -/
def extract_tags_fallback (st : CleanerState) (text : String) :
    List String × CleanerState :=
  let text_lower := pyLower text.data
  let best_match := (pickBest text_lower main_categories ("Business", 0)).1
  let r := normalize_and_merge_tags st best_match
  ([r.1], { r.2 with discovered_tags := setAdd r.2.discovered_tags r.1 })

/-! ## few_shots.py -/

/-- One record of the cleaned corpus as loaded by `FewShotPosts.load_posts`. -/
structure Post where
  text : String
  engagement : Int
  line_count : Int
  language : String
  tags : List String
deriving DecidableEq

/-- Model of `FewShotPosts.categorize_length` from `few_shots.py`. -/
def categorize_length (line_count : Int) : String :=
  if line_count < 5 then "Short"
  else if 5 ≤ line_count ∧ line_count ≤ 10 then "Medium"
  else "Long"

/-- Model of `FewShotPosts.get_filtered_posts` from `few_shots.py`: the pandas boolean
mask keeps exactly the rows whose tag list contains `tag`, whose language
equals `language` and whose derived length bucket equals `length`, in load
order.  The derived `length` column is `categorize_length` of `line_count`,
added at load time. -/
def get_filtered_posts (posts : List Post) (length language tag : String) : List Post :=
  posts.filter fun p =>
    p.tags.contains tag && (p.language == language) &&
      (categorize_length p.line_count == length)

/-- The predicate of claim C2, written after the spec sentence: derived
length equals the argument, language equals the argument (case-sensitive),
and the tag list contains the argument tag. -/
def matchesFilter (len language tag : String) (p : Post) : Prop :=
  categorize_length p.line_count = len ∧ p.language = language ∧ tag ∈ p.tags

instance (len language tag : String) (p : Post) :
    Decidable (matchesFilter len language tag p) := by
  unfold matchesFilter; infer_instance

/-- Concrete corpus used to instantiate the C2 theorem (the end-to-end record
of spec section 8). -/
def demoPost : Post :=
  { text := "Saving money is hard.\nBut I did it anyway."
    engagement := 0
    line_count := 2
    language := "English"
    tags := ["Financial Planning"] }

/-! ## post_generator.py -/

/-- Model of `get_length_str` from `post_generator.py`; the function falls off the end
for any other bucket, which Python reports as `None`. -/
def get_length_str (length : String) : Option String :=
  if length == "Short" then some "1 to 5 lines"
  else if length == "Medium" then some "6 to 10 lines"
  else if length == "Long" then some "11 to 15 lines"
  else none

/-- Python string interpolation of a possibly absent value (`str(None)` is
the text `"None"`). -/
def pyStr : Option String → String
  | some s => s
  | none => "None"

/-- Literal prompt text before the first `persona` interpolation. -/
def promptA : String := "\nYou are a professional content creator trained to write like "

/-- Literal prompt text between the first and second `persona`. -/
def promptB : String := ", a popular influencer known for deep, relatable, and emotionally-driven storytelling on LinkedIn.\n\n== Objective ==\nGenerate a new original LinkedIn post in the voice of "

/-- Literal prompt text between the second `persona` and `tag`. -/
def promptC : String := ", using the writing tone and rhythm consistent with the following inputs and examples. Do not output anything extra — just the post text.\n\n== Inputs ==\n1) Topic: "

/-- Literal prompt text between `tag` and `length_str`. -/
def promptD : String := "\n2) Post Length: "

/-- Literal prompt text between `length_str` and `language`. -/
def promptE : String := "\n3) Language: "

/-- Literal prompt text between `language` and the third `persona`. -/
def promptF : String := "\n   - If \"Urduish\", write in Roman Urdu blended with English naturally.\n   - If \"English\", keep it clean, modern, and simple.\n\n== Style Guide (Critical) ==\n- Use the **storytelling** tone. Start with a relatable hook or personal truth.\n- Write in a reflective, conversational style — as if speaking to a friend.\n- Use **short sentences**, whitespace, and **line breaks** generously.\n- Avoid generic advice. Every sentence should **feel personal and grounded**.\n- Keep a **raw, human** voice. Emotion is more important than perfection.\n- No emojis. No hashtags.\n- You can use a line that Hamza Bhatti used sometimes \"Dedo Mazo Ayo\"\n\n== Output ==\n- The final output must **look and feel like** it was written by "

/-- Literal prompt text between the third and fourth `persona`. -/
def promptG : String := ".\n- Don't copy or reuse the example lines. Just use their style as inspiration.\n\n== Writing Examples ==\n(Below are 1-2 real examples of "

/-- Literal prompt text after the fourth `persona`. -/
def promptH : String := "'s writing style. Match this tone.)\n"

/-- The fixed part of the prompt built by `get_prompt`, before the example
loop appends anything. -/
def basePrompt (length language tag persona : String) : String :=
  promptA ++ persona ++ promptB ++ persona ++ promptC ++ tag ++ promptD ++
    pyStr (get_length_str length) ++ promptE ++ language ++ promptF ++
    persona ++ promptG ++ persona ++ promptH

/-- The example loop of `get_prompt`: `enumerate` with a `break` once `i == 1`
appends at most the first two retrieved posts, each preceded by an
`Example N:` label. -/
def examplesSection : List Post → String
  | [] => ""
  | [p] => "\n\nExample 1:\n\n" ++ p.text
  | p :: q :: _ =>
    "\n\nExample 1:\n\n" ++ p.text ++ "\n\nExample 2:\n\n" ++ q.text

/-- Model of `get_prompt` from `post_generator.py` (with its `tone` parameter, unused
by the template, and `persona` explicit). -/
def get_prompt (corpus : List Post) (length language tag tone persona : String) : String :=
  basePrompt length language tag persona ++
    examplesSection (get_filtered_posts corpus length language tag)

/-- The function `get_prompt` at its Python default arguments. -/
def get_prompt_default (corpus : List Post) (length language tag : String) : String :=
  get_prompt corpus length language tag "storytelling" "Hamza Bhatti"

/-! ## Claim C3 -/

/-- C3: `categorize_length` returns `"Short"` iff `n < 5`, `"Medium"` iff
`5 ≤ n ≤ 10`, `"Long"` iff `n > 10`; the boundary inputs 4, 5, 10, 11 map to
Short, Medium, Medium, Long. -/
theorem categorize_length_spec :
    (∀ n : Int,
      (categorize_length n = "Short" ↔ n < 5) ∧
      (categorize_length n = "Medium" ↔ 5 ≤ n ∧ n ≤ 10) ∧
      (categorize_length n = "Long" ↔ 10 < n)) ∧
    categorize_length 4 = "Short" ∧ categorize_length 5 = "Medium" ∧
    categorize_length 10 = "Medium" ∧ categorize_length 11 = "Long" := by
  refine ⟨fun n => ?_, by decide, by decide, by decide, by decide⟩
  have hSM : ("Short" : String) ≠ "Medium" := by decide
  have hSL : ("Short" : String) ≠ "Long" := by decide
  have hMS : ("Medium" : String) ≠ "Short" := by decide
  have hML : ("Medium" : String) ≠ "Long" := by decide
  have hLS : ("Long" : String) ≠ "Short" := by decide
  have hLM : ("Long" : String) ≠ "Medium" := by decide
  unfold categorize_length
  split_ifs with h1 h2 <;>
    refine ⟨?_, ?_, ?_⟩ <;> simp_all <;> omega

/-! ## Claim C2 -/

/-- C2: `get_filtered_posts` returns exactly the records matching all three
predicates, preserves load order (the result is a sublist of the input), and
returns the empty list exactly when nothing matches. -/
theorem get_filtered_posts_spec (posts : List Post) (len language tag : String) :
    get_filtered_posts posts len language tag
        = posts.filter (fun p => decide (matchesFilter len language tag p)) ∧
    List.Sublist (get_filtered_posts posts len language tag) posts ∧
    (get_filtered_posts posts len language tag = [] ↔
      ∀ p ∈ posts, ¬ matchesFilter len language tag p) := by
  have hpred : ∀ p : Post,
      (p.tags.contains tag && (p.language == language) &&
        (categorize_length p.line_count == len))
        = decide (matchesFilter len language tag p) := by
    intro p
    by_cases h1 : tag ∈ p.tags <;> by_cases h2 : p.language = language <;>
      by_cases h3 : categorize_length p.line_count = len <;>
      simp [matchesFilter, h1, h2, h3, List.contains]
  have hmain : get_filtered_posts posts len language tag
      = posts.filter (fun p => decide (matchesFilter len language tag p)) := by
    unfold get_filtered_posts
    exact List.filter_congr (fun p _ => hpred p)
  refine ⟨hmain, ?_, ?_⟩
  · rw [hmain]; exact List.filter_sublist posts
  · rw [hmain, List.filter_eq_nil_iff]
    simp

/-- Witness for C2 at a concrete corpus and query. -/
theorem get_filtered_posts_spec_witness :
    get_filtered_posts [demoPost] "Short" "English" "Financial Planning"
        = [demoPost].filter
            (fun p => decide (matchesFilter "Short" "English" "Financial Planning" p)) ∧
    List.Sublist (get_filtered_posts [demoPost] "Short" "English" "Financial Planning")
      [demoPost] ∧
    (get_filtered_posts [demoPost] "Short" "English" "Financial Planning" = [] ↔
      ∀ p ∈ [demoPost], ¬ matchesFilter "Short" "English" "Financial Planning" p) :=
  get_filtered_posts_spec [demoPost] "Short" "English" "Financial Planning"

/-! ## Claim C5 -/

/-- C5: `detect_language` returns `"Urduish"` iff the lower-cased text matches
one of the fixed patterns (Arabic/Urdu code-point range or a Roman-Urdu word
as a standalone word), `"English"` otherwise; `"yeh mera plan hai"` is
Urduish and `"This is a clean English sentence."` is English. -/
theorem detect_language_spec :
    (∀ s : String,
      (detect_language s = "Urduish" ↔ urduPatternMatch (pyLower s.data)) ∧
      (detect_language s = "English" ↔ ¬ urduPatternMatch (pyLower s.data))) ∧
    detect_language "yeh mera plan hai" = "Urduish" ∧
    detect_language "This is a clean English sentence." = "English" := by
  refine ⟨fun s => ?_, by decide, by decide⟩
  have hb : ((pyLower s.data).any inArabicRange
      || (urdu_words1 ++ urdu_words2 ++ urdu_words3).any
          (fun w => hasStandalone w.data (pyLower s.data)))
      = true ↔ urduPatternMatch (pyLower s.data) := by
    simp only [Bool.or_eq_true, List.any_eq_true, List.mem_append, urduPatternMatch]
  simp only [detect_language]
  by_cases hc : ((pyLower s.data).any inArabicRange
      || (urdu_words1 ++ urdu_words2 ++ urdu_words3).any
          (fun w => hasStandalone w.data (pyLower s.data))) = true
  · rw [if_pos hc]
    exact ⟨iff_of_true rfl (hb.mp hc),
      iff_of_false (by decide) (not_not_intro (hb.mp hc))⟩
  · have hnp : ¬ urduPatternMatch (pyLower s.data) := fun hp => hc (hb.mpr hp)
    rw [if_neg hc]
    exact ⟨iff_of_false (by decide) hnp, iff_of_true rfl hnp⟩

/-! ## Dictionary lemmas for the synonym map -/

/-- Looking up a key right after inserting it yields the inserted value. -/
theorem dictLookup_dictInsert_self (m : List (String × String)) (k v : String) :
    dictLookup (dictInsert m k v) k = some v := by
  unfold dictInsert dictLookup
  by_cases h : m.any (fun p => p.1 == k)
  · rw [if_pos h]
    induction m with
    | nil => simp at h
    | cons p rest ih =>
      by_cases hp : p.1 == k
      · simp [List.find?, hp]
      · simp only [List.any_cons, hp, Bool.false_or] at h
        simpa [List.find?, hp] using ih h
  · rw [if_neg h]
    induction m with
    | nil => simp [List.find?]
    | cons p rest ih =>
      simp only [List.any_cons, Bool.or_eq_true, not_or] at h
      have hp : (p.1 == k) = false := by
        cases hpk : p.1 == k
        · rfl
        · exact absurd hpk h.1
      simpa [List.find?, hp] using ih (by simp [h.2])

/-- Inserting a different key does not change a lookup. -/
theorem dictLookup_dictInsert_other (m : List (String × String)) (k v k' : String)
    (hk : k' ≠ k) :
    dictLookup (dictInsert m k v) k' = dictLookup m k' := by
  have hkk : (k == k') = false := by
    cases h : k == k'
    · rfl
    · exact absurd (beq_iff_eq.mp h).symm hk
  unfold dictInsert dictLookup
  by_cases h : m.any (fun p => p.1 == k)
  · rw [if_pos h]
    clear h
    induction m with
    | nil => rfl
    | cons p rest ih =>
      by_cases hp : p.1 == k
      · have hp' : (p.1 == k') = false := by
          cases hq : p.1 == k'
          · rfl
          · exact absurd (beq_iff_eq.mp hp ▸ beq_iff_eq.mp hq) hk.symm
        simpa [List.find?, hp, hp', hkk] using ih
      · cases hq : p.1 == k' <;> simpa [List.find?, hp, hq] using ih
  · rw [if_neg h]
    clear h
    induction m with
    | nil => simp [List.find?, hkk]
    | cons p rest ih =>
      cases hq : p.1 == k' <;> simpa [List.find?, hq] using ih

/-- Every member of an insertion result was already present or is the new
binding. -/
theorem mem_dictInsert (m : List (String × String)) (k v : String)
    (p : String × String) (hp : p ∈ dictInsert m k v) : p ∈ m ∨ p = (k, v) := by
  unfold dictInsert at hp
  by_cases h : m.any (fun q => q.1 == k)
  · rw [if_pos h] at hp
    obtain ⟨q, hq, hfq⟩ := List.mem_map.mp hp
    by_cases hqk : q.1 == k
    · right; rw [← hfq]; simp [hqk]
    · left; rw [← hfq]; simp only [hqk]; simpa using hq
  · rw [if_neg h] at hp
    rcases List.mem_append.mp hp with h1 | h1
    · left; exact h1
    · right; simpa using h1

/-! ## Claim C8 -/

/-- C8: from any state, `"Budgeting"` normalizes to `"Financial Planning"`,
a subsequent `"Budget"` also normalizes to `"Financial Planning"`, and both
synonym mappings are recorded. -/
theorem budgeting_merge_scenario (st : CleanerState) :
    (normalize_and_merge_tags st "Budgeting").1 = "Financial Planning" ∧
    (normalize_and_merge_tags
        (normalize_and_merge_tags st "Budgeting").2 "Budget").1 = "Financial Planning" ∧
    dictLookup (normalize_and_merge_tags
        (normalize_and_merge_tags st "Budgeting").2 "Budget").2.tag_synonyms
      "Budgeting" = some "Financial Planning" ∧
    dictLookup (normalize_and_merge_tags
        (normalize_and_merge_tags st "Budgeting").2 "Budget").2.tag_synonyms
      "Budget" = some "Financial Planning" := by
  have ht1 : (⟨pyTitle (pstrip ("Budgeting" : String).data)⟩ : String) = "Budgeting" := by
    decide
  have ht2 : (⟨pyTitle (pstrip ("Budget" : String).data)⟩ : String) = "Budget" := by
    decide
  have hs1 : ruleScan "Budgeting" merge_rules = some "Financial Planning" := by decide
  have hs2 : ruleScan "Budget" merge_rules = some "Financial Planning" := by decide
  have h1 : normalize_and_merge_tags st "Budgeting"
      = ("Financial Planning",
        { st with tag_synonyms :=
            dictInsert st.tag_synonyms "Budgeting" "Financial Planning" }) := by
    simp [normalize_and_merge_tags, ht1, hs1]
  have h2 : ∀ st' : CleanerState, normalize_and_merge_tags st' "Budget"
      = ("Financial Planning",
        { st' with tag_synonyms :=
            dictInsert st'.tag_synonyms "Budget" "Financial Planning" }) := by
    intro st'
    simp [normalize_and_merge_tags, ht2, hs2]
  rw [h1, h2]
  refine ⟨rfl, rfl, ?_, ?_⟩
  · rw [dictLookup_dictInsert_other _ _ _ _ (by decide)]
    exact dictLookup_dictInsert_self _ _ _
  · exact dictLookup_dictInsert_self _ _ _

/-! ## Claim C9 -/

/-- A successful rule scan always returns one of the canonical keys of the
rule table it scanned. -/
theorem ruleScan_mem (t : String) :
    ∀ (rules : List (String × List String)) (main : String),
      ruleScan t rules = some main → main ∈ rules.map Prod.fst := by
  intro rules
  induction rules with
  | nil => intro main h; simp [ruleScan] at h
  | cons r rest ih =>
    intro main h
    obtain ⟨mn, syns⟩ := r
    simp only [ruleScan] at h
    split_ifs at h with h1 h2
    · cases h; simp
    · cases h; simp
    · simpa using Or.inr (by simpa using ih main h)

/-- One `applyTag` step preserves the invariant that every synonym value is a
canonical merge-rule key. -/
theorem applyTag_synonyms_canonical (st : CleanerState) (raw : String)
    (h : ∀ p ∈ st.tag_synonyms, p.2 ∈ canonical_tags) :
    ∀ p ∈ (applyTag st raw).tag_synonyms, p.2 ∈ canonical_tags := by
  unfold applyTag normalize_and_merge_tags
  cases hscan : ruleScan ⟨pyTitle (pstrip raw.data)⟩ merge_rules with
  | none =>
    by_cases hlt : st.discovered_tags.length < max_tags <;>
      simpa [hscan, hlt] using h
  | some main =>
    simp only [hscan]
    intro p hp
    rcases mem_dictInsert _ _ _ p hp with hold | hnew
    · exact h p hold
    · rw [hnew]
      exact ruleScan_mem _ merge_rules main hscan

/-- C9: after any sequence of `normalize_and_merge_tags` calls from the
initial state, every value stored in `tag_synonyms` is one of the twelve
hardcoded canonical keys of the merge-rule table. -/
theorem tag_synonyms_values_canonical (raws : List String) :
    ∀ p ∈ (runTags initState raws).tag_synonyms, p.2 ∈ canonical_tags := by
  unfold runTags
  suffices h : ∀ (l : List String) (st : CleanerState),
      (∀ p ∈ st.tag_synonyms, p.2 ∈ canonical_tags) →
      ∀ p ∈ (l.foldl applyTag st).tag_synonyms, p.2 ∈ canonical_tags by
    exact h raws initState (by simp [initState])
  intro l
  induction l with
  | nil => intro st h; simpa using h
  | cons r rest ih =>
    intro st h
    exact ih _ (applyTag_synonyms_canonical st r h)

/-- Witness for C9 at a concrete run and synonym entry. -/
theorem tag_synonyms_values_canonical_witness :
    ("Budget", "Financial Planning") ∈ (runTags initState ["Budget"]).tag_synonyms ∧
    "Financial Planning" ∈ canonical_tags :=
  ⟨by decide,
   tag_synonyms_values_canonical ["Budget"] ("Budget", "Financial Planning") (by decide)⟩

/-! ## Claim C10 -/

/-- The best-match loop never moves off its accumulator when no score beats
it. -/
theorem pickBest_of_all_le (textLower : List Char) :
    ∀ (cats : List (String × List String)) (b : String) (m : Nat),
      (∀ p ∈ cats, scoreOf p.2 textLower ≤ m) →
      pickBest textLower cats (b, m) = (b, m) := by
  intro cats
  induction cats with
  | nil => intro b m _; rfl
  | cons c rest ih =>
    intro b m h
    obtain ⟨category, keywords⟩ := c
    have hle : scoreOf keywords textLower ≤ m := h (category, keywords) (by simp)
    simp only [pickBest]
    rw [if_neg (by omega)]
    exact ih b m (fun p hp => h p (by simp [hp]))

/-- C10: on a text where every fallback category scores zero, the default
`"Business"` is itself merged into `"Entrepreneurship"`, so
`extract_tags_fallback` never yields the literal tag `"Business"`. -/
theorem extract_tags_fallback_all_zero (st : CleanerState) (text : String)
    (h : ∀ p ∈ main_categories, scoreOf p.2 (pyLower text.data) = 0) :
    (extract_tags_fallback st text).1 = ["Entrepreneurship"] ∧
    (extract_tags_fallback st text).1 ≠ ["Business"] := by
  have hbest : pickBest (pyLower text.data) main_categories ("Business", 0)
      = ("Business", 0) :=
    pickBest_of_all_le _ _ _ _ (fun p hp => le_of_eq (h p hp))
  have ht : (⟨pyTitle (pstrip ("Business" : String).data)⟩ : String) = "Business" := by
    decide
  have hscan : ruleScan "Business" merge_rules = some "Entrepreneurship" := by decide
  have hres : (extract_tags_fallback st text).1
      = [(normalize_and_merge_tags st
          ((pickBest (pyLower text.data) main_categories ("Business", 0)).1)).1] := rfl
  rw [hres, hbest]
  simp only [normalize_and_merge_tags, ht, hscan]
  exact ⟨by simp, by decide⟩

/-- Witness for C10: the text `"zzz"` contains no category keyword. -/
theorem extract_tags_fallback_all_zero_witness :
    (∀ p ∈ main_categories, scoreOf p.2 (pyLower ("zzz" : String).data) = 0) ∧
    ((extract_tags_fallback initState "zzz").1 = ["Entrepreneurship"] ∧
     (extract_tags_fallback initState "zzz").1 ≠ ["Business"]) :=
  ⟨by decide, extract_tags_fallback_all_zero initState "zzz" (by decide)⟩

/-! ## Claim C6 -/

/-- Full characterization of the best-match loop from any accumulator: either
no score beats the accumulator and it survives, or the result is the first
entry reaching the running maximum (strictly above everything before it, at
least everything after it). -/
theorem pickBest_spec (textLower : List Char) :
    ∀ (cats : List (String × List String)) (b : String) (m : Nat),
      ((∀ p ∈ cats, scoreOf p.2 textLower ≤ m) ∧
        pickBest textLower cats (b, m) = (b, m)) ∨
      (∃ pre c post, cats = pre ++ c :: post ∧
        pickBest textLower cats (b, m) = (c.1, scoreOf c.2 textLower) ∧
        m < scoreOf c.2 textLower ∧
        (∀ q ∈ pre, scoreOf q.2 textLower < scoreOf c.2 textLower) ∧
        (∀ q ∈ post, scoreOf q.2 textLower ≤ scoreOf c.2 textLower)) := by
  intro cats
  induction cats with
  | nil => intro b m; left; exact ⟨by simp, rfl⟩
  | cons c0 rest ih =>
    intro b m
    obtain ⟨cat, kws⟩ := c0
    by_cases hgt : m < scoreOf kws textLower
    · have hstep : pickBest textLower ((cat, kws) :: rest) (b, m)
          = pickBest textLower rest (cat, scoreOf kws textLower) := by
        simp only [pickBest]
        rw [if_pos hgt]
      rcases ih cat (scoreOf kws textLower) with ⟨hall, heq⟩ |
        ⟨pre, c, post, hsplit, heq, hlt, hpre, hpost⟩
      · right
        exact ⟨[], (cat, kws), rest, by simp, by rw [hstep, heq], hgt,
          by simp, hall⟩
      · right
        refine ⟨(cat, kws) :: pre, c, post, by rw [hsplit]; rfl,
          by rw [hstep, heq], lt_trans hgt hlt, ?_, hpost⟩
        intro q hq
        rcases List.mem_cons.mp hq with h1 | h1
        · rw [h1]; exact hlt
        · exact hpre q h1
    · have hstep : pickBest textLower ((cat, kws) :: rest) (b, m)
          = pickBest textLower rest (b, m) := by
        simp only [pickBest]
        rw [if_neg hgt]
      rcases ih b m with ⟨hall, heq⟩ |
        ⟨pre, c, post, hsplit, heq, hlt, hpre, hpost⟩
      · left
        refine ⟨?_, by rw [hstep, heq]⟩
        intro p hp
        rcases List.mem_cons.mp hp with h1 | h1
        · rw [h1]
          show scoreOf kws textLower ≤ m
          omega
        · exact hall p h1
      · right
        refine ⟨(cat, kws) :: pre, c, post, by rw [hsplit]; rfl,
          by rw [hstep, heq], hlt, ?_, hpost⟩
        intro q hq
        rcases List.mem_cons.mp hq with h1 | h1
        · rw [h1]
          show scoreOf kws textLower < scoreOf c.2 textLower
          omega
        · exact hpre q h1

/-- C6: `extract_tags_fallback` scores the 15 fixed categories, picks the
strictly highest with ties resolved to the first-seen highest in iteration
order, defaults to `"Business"` when all scores are zero, and passes the
selection through `normalize_and_merge_tags`. -/
theorem extract_tags_fallback_selection (st : CleanerState) (text : String) :
    (extract_tags_fallback st text).1
      = [(normalize_and_merge_tags st
          ((pickBest (pyLower text.data) main_categories ("Business", 0)).1)).1] ∧
    ((∀ p ∈ main_categories, scoreOf p.2 (pyLower text.data) = 0) →
      (pickBest (pyLower text.data) main_categories ("Business", 0)).1 = "Business") ∧
    ((∃ p ∈ main_categories, 0 < scoreOf p.2 (pyLower text.data)) →
      ∃ pre c post, main_categories = pre ++ c :: post ∧
        (pickBest (pyLower text.data) main_categories ("Business", 0)).1 = c.1 ∧
        0 < scoreOf c.2 (pyLower text.data) ∧
        (∀ q ∈ pre, scoreOf q.2 (pyLower text.data) < scoreOf c.2 (pyLower text.data)) ∧
        (∀ q ∈ post, scoreOf q.2 (pyLower text.data) ≤ scoreOf c.2 (pyLower text.data))) := by
  refine ⟨rfl, ?_, ?_⟩
  · intro h
    rw [pickBest_of_all_le _ _ _ _ (fun p hp => le_of_eq (h p hp))]
  · rintro ⟨p0, hp0, hpos⟩
    rcases pickBest_spec (pyLower text.data) main_categories "Business" 0 with
      ⟨hall, _⟩ | ⟨pre, c, post, hsplit, heq, hlt, hpre, hpost⟩
    · exact absurd (hall p0 hp0) (by omega)
    · exact ⟨pre, c, post, hsplit, by rw [heq], hlt, hpre, hpost⟩

/-! ## Claim C1 -/

set_option maxRecDepth 8000 in
/-- Counterexample to C1 as stated: fifteen unrelated tags followed by
`"Budget"` leave `discovered_tags` with sixteen members, exceeding 15. -/
theorem discovered_tags_cap_counterexample :
    15 < (runTags initState overflowTags).discovered_tags.length := by decide

/-- The function `normalize_and_merge_tags` never touches the discovered-tag set itself. -/
theorem normalize_discovered_unchanged (st : CleanerState) (raw : String) :
    (normalize_and_merge_tags st raw).2.discovered_tags = st.discovered_tags := by
  unfold normalize_and_merge_tags
  cases hscan : ruleScan ⟨pyTitle (pstrip raw.data)⟩ merge_rules with
  | some main => simp [hscan]
  | none =>
    by_cases hlt : st.discovered_tags.length < max_tags <;> simp [hscan, hlt]

/-- The similarity fallback only ever returns an already discovered tag or
the literal `"General"`. -/
theorem find_most_similar_mem (st : CleanerState) (t : String) :
    find_most_similar_existing_tag st t ∈ st.discovered_tags ∨
    find_most_similar_existing_tag st t = "General" := by
  unfold find_most_similar_existing_tag
  cases hf : st.discovered_tags.find? (fun existing =>
      (pyWords (pyLower t.data)).any (fun w =>
        (pyWords (pyLower existing.data)).any (fun v => v == w))) with
  | some ex =>
    left
    simpa [hf] using List.mem_of_find?_eq_some hf
  | none =>
    cases hg : generic_tags.find? (fun g => st.discovered_tags.contains g) with
    | some g =>
      left
      have hgc := List.find?_some hg
      simp only [hf, hg]
      simpa [List.contains] using hgc
    | none =>
      cases hd : st.discovered_tags with
      | nil => right; simp [hf, hg, hd]
      | cons a rest =>
        rw [hd] at hf hg
        left
        simp [hf, hg]

/-- Adding an element already filtered out does not change the filtered
list. -/
theorem setAdd_filter_false (l : List String) (x : String) (p : String → Bool)
    (hp : p x = false) : (setAdd l x).filter p = l.filter p := by
  unfold setAdd
  by_cases hx : l.contains x
  · rw [if_pos hx]
  · rw [if_neg hx, List.filter_append]
    simp [hp]

/-- Adding a member of the list is a no-op. -/
theorem setAdd_of_mem (l : List String) (x : String) (hx : x ∈ l) :
    setAdd l x = l := by
  unfold setAdd
  rw [if_pos (by simpa [List.contains] using hx)]

/-- Adding to the set grows the list by at most one element. -/
theorem setAdd_length_le (l : List String) (x : String) :
    (setAdd l x).length ≤ l.length + 1 := by
  unfold setAdd
  by_cases hx : l.contains x
  · rw [if_pos hx]; omega
  · rw [if_neg hx]; simp

/-- Adding to the set keeps the list duplicate-free. -/
theorem setAdd_nodup (l : List String) (x : String) (h : l.Nodup) :
    (setAdd l x).Nodup := by
  unfold setAdd
  by_cases hx : l.contains x
  · rwa [if_pos hx]
  · rw [if_neg hx]
    have hxl : x ∉ l := by simpa [List.contains] using hx
    simp [List.nodup_append, h, hxl]

/-- Splitting a length along a filter and its complement. -/
theorem length_filter_split (l : List String) (p : String → Bool) :
    (l.filter p).length + (l.filter (fun x => !(p x))).length = l.length := by
  induction l with
  | nil => rfl
  | cons a rest ih =>
    by_cases h : p a <;> simp [h, List.filter_cons] <;> omega

/-- A duplicate-free list of members of `C` is no longer than `C`. -/
theorem nodup_subset_length_le (l C : List String) (hnd : l.Nodup)
    (hsub : ∀ x ∈ l, x ∈ C) : l.length ≤ C.length := by
  classical
  calc l.length = l.toFinset.card := (List.toFinset_card_of_nodup hnd).symm
    _ ≤ C.toFinset.card := Finset.card_le_card (fun x hx =>
        List.mem_toFinset.mpr (hsub x (List.mem_toFinset.mp hx)))
    _ ≤ C.length := List.toFinset_card_le C

/-- One `applyTag` step keeps the discovered set duplicate-free and its
non-canonical part at no more than 15 members. -/
theorem applyTag_discovered_step (st : CleanerState) (raw : String)
    (hnd : st.discovered_tags.Nodup)
    (hcnt : (st.discovered_tags.filter
        (fun t => !(canonical_tags.contains t))).length ≤ 15) :
    (applyTag st raw).discovered_tags.Nodup ∧
    ((applyTag st raw).discovered_tags.filter
        (fun t => !(canonical_tags.contains t))).length ≤ 15 := by
  have hdisc0 : (applyTag st raw).discovered_tags
      = setAdd (normalize_and_merge_tags st raw).2.discovered_tags
          (normalize_and_merge_tags st raw).1 := rfl
  have hdisc : (applyTag st raw).discovered_tags
      = setAdd st.discovered_tags (normalize_and_merge_tags st raw).1 := by
    rw [hdisc0, normalize_discovered_unchanged]
  rw [hdisc]
  refine ⟨setAdd_nodup _ _ hnd, ?_⟩
  unfold normalize_and_merge_tags
  cases hscan : ruleScan ⟨pyTitle (pstrip raw.data)⟩ merge_rules with
  | some main =>
    simp only [hscan]
    have hmain : main ∈ canonical_tags := ruleScan_mem _ merge_rules main hscan
    rw [setAdd_filter_false _ _ _ (by simpa [List.contains] using hmain)]
    exact hcnt
  | none =>
    simp only [hscan]
    by_cases hlt : st.discovered_tags.length < max_tags
    · rw [if_pos hlt]
      show (List.filter (fun t => !(canonical_tags.contains t))
        (setAdd st.discovered_tags ⟨pyTitle (pstrip raw.data)⟩)).length ≤ 15
      have h1 := List.length_filter_le (fun t => !(canonical_tags.contains t))
        (setAdd st.discovered_tags ⟨pyTitle (pstrip raw.data)⟩)
      have h2 := setAdd_length_le st.discovered_tags ⟨pyTitle (pstrip raw.data)⟩
      have h3 : st.discovered_tags.length < 15 := hlt
      omega
    · rw [if_neg hlt]
      show (List.filter (fun t => !(canonical_tags.contains t))
        (setAdd st.discovered_tags
          (find_most_similar_existing_tag st ⟨pyTitle (pstrip raw.data)⟩))).length ≤ 15
      rcases find_most_similar_mem st ⟨pyTitle (pstrip raw.data)⟩ with hmem | hgen
      · rw [setAdd_of_mem _ _ hmem]
        exact hcnt
      · rw [hgen, setAdd_filter_false _ _ _ (by decide)]
        exact hcnt

/-- Amended C1: `discovered_tags` can exceed 15 members (merge-rule hits may
still add canonical tags after the cap is reached), but it never exceeds
27 = 15 accepted tags + the 12 canonical merge-rule keys. -/
theorem discovered_tags_bounded (raws : List String) :
    (runTags initState raws).discovered_tags.length ≤ 27 := by
  suffices h : ∀ (l : List String) (st : CleanerState),
      st.discovered_tags.Nodup →
      (st.discovered_tags.filter
        (fun t => !(canonical_tags.contains t))).length ≤ 15 →
      (l.foldl applyTag st).discovered_tags.Nodup ∧
      ((l.foldl applyTag st).discovered_tags.filter
        (fun t => !(canonical_tags.contains t))).length ≤ 15 by
    obtain ⟨hnd, hcnt⟩ := h raws initState (by simp [initState]) (by simp [initState])
    have hsplit := length_filter_split
      (List.foldl applyTag initState raws).discovered_tags
      (fun t => canonical_tags.contains t)
    have hcan : ((List.foldl applyTag initState raws).discovered_tags.filter
        (fun t => canonical_tags.contains t)).length ≤ 12 := by
      have h12 : canonical_tags.length = 12 := by decide
      rw [← h12]
      refine nodup_subset_length_le _ _ (hnd.filter _) ?_
      intro x hx
      have := List.of_mem_filter hx
      simpa [List.contains] using this
    show (List.foldl applyTag initState raws).discovered_tags.length ≤ 27
    omega
  intro l
  induction l with
  | nil => intro st h1 h2; exact ⟨h1, h2⟩
  | cons r rest ih =>
    intro st h1 h2
    obtain ⟨h1', h2'⟩ := applyTag_discovered_step st r h1 h2
    exact ih _ h1' h2'

/-! ## Claim C7 -/

/-- A list starts with itself followed by anything. -/
theorem lstarts_self_append (w b : List Char) : lstarts w (w ++ b) = true := by
  induction w with
  | nil => rfl
  | cons c cs ih => simp [lstarts, ih]

/-- Substring occurrences survive prepending. -/
theorem hasSub_append_right (w t a : List Char) (h : hasSub w t = true) :
    hasSub w (a ++ t) = true := by
  induction a with
  | nil => simpa using h
  | cons c cs ih => simp [hasSub, ih]

/-- A list occurs in itself followed by anything. -/
theorem hasSub_self_append (w b : List Char) : hasSub w (w ++ b) = true := by
  cases w with
  | nil =>
    cases b with
    | nil => rfl
    | cons c t => simp [hasSub, lstarts]
  | cons c cs =>
    have h := lstarts_self_append (c :: cs) b
    simp only [List.cons_append] at h
    simp [hasSub, h]

/-- The example loop looks at no more than the first two retrieved posts. -/
theorem examplesSection_take_two (posts : List Post) :
    examplesSection (posts.take 2) = examplesSection posts := by
  match posts with
  | [] => rfl
  | [p] => rfl
  | p :: q :: rest => rfl

/-- C7: the prompt embeds at most the first two filtered examples, each under
an `Example N:` label; with zero matching examples the prompt is exactly the
base template (no example section) and still contains the topic, the length
range and the language. -/
theorem get_prompt_spec (corpus : List Post) (length language tag : String)
    (hlen : length = "Short" ∨ length = "Medium" ∨ length = "Long") :
    (get_filtered_posts corpus length language tag = [] →
      get_prompt_default corpus length language tag
        = basePrompt length language tag "Hamza Bhatti") ∧
    get_prompt_default corpus length language tag
      = basePrompt length language tag "Hamza Bhatti" ++
          examplesSection ((get_filtered_posts corpus length language tag).take 2) ∧
    (∀ p q rest, examplesSection (p :: q :: rest)
      = "\n\nExample 1:\n\n" ++ p.text ++ "\n\nExample 2:\n\n" ++ q.text) ∧
    (∀ p, examplesSection [p] = "\n\nExample 1:\n\n" ++ p.text) ∧
    hasSub tag.data (get_prompt_default corpus length language tag).data = true ∧
    (∃ r, get_length_str length = some r ∧
      hasSub r.data (get_prompt_default corpus length language tag).data = true) ∧
    hasSub language.data (get_prompt_default corpus length language tag).data = true := by
  refine ⟨?_, ?_, fun p q rest => rfl, fun p => rfl, ?_, ?_, ?_⟩
  · intro h
    simp [get_prompt_default, get_prompt, h, examplesSection]
  · rw [examplesSection_take_two]
    rfl
  · simp only [get_prompt_default, get_prompt, basePrompt, String.data_append,
      List.append_assoc]
    apply hasSub_append_right
    apply hasSub_append_right
    apply hasSub_append_right
    apply hasSub_append_right
    apply hasSub_append_right
    exact hasSub_self_append _ _
  · rcases hlen with h | h | h <;> subst h
    · refine ⟨"1 to 5 lines", by decide, ?_⟩
      have hr : pyStr (get_length_str "Short") = "1 to 5 lines" := by decide
      simp only [get_prompt_default, get_prompt, basePrompt, hr,
        String.data_append, List.append_assoc]
      apply hasSub_append_right
      apply hasSub_append_right
      apply hasSub_append_right
      apply hasSub_append_right
      apply hasSub_append_right
      apply hasSub_append_right
      apply hasSub_append_right
      exact hasSub_self_append _ _
    · refine ⟨"6 to 10 lines", by decide, ?_⟩
      have hr : pyStr (get_length_str "Medium") = "6 to 10 lines" := by decide
      simp only [get_prompt_default, get_prompt, basePrompt, hr,
        String.data_append, List.append_assoc]
      apply hasSub_append_right
      apply hasSub_append_right
      apply hasSub_append_right
      apply hasSub_append_right
      apply hasSub_append_right
      apply hasSub_append_right
      apply hasSub_append_right
      exact hasSub_self_append _ _
    · refine ⟨"11 to 15 lines", by decide, ?_⟩
      have hr : pyStr (get_length_str "Long") = "11 to 15 lines" := by decide
      simp only [get_prompt_default, get_prompt, basePrompt, hr,
        String.data_append, List.append_assoc]
      apply hasSub_append_right
      apply hasSub_append_right
      apply hasSub_append_right
      apply hasSub_append_right
      apply hasSub_append_right
      apply hasSub_append_right
      apply hasSub_append_right
      exact hasSub_self_append _ _
  · simp only [get_prompt_default, get_prompt, basePrompt, String.data_append,
      List.append_assoc]
    apply hasSub_append_right
    apply hasSub_append_right
    apply hasSub_append_right
    apply hasSub_append_right
    apply hasSub_append_right
    apply hasSub_append_right
    apply hasSub_append_right
    apply hasSub_append_right
    apply hasSub_append_right
    exact hasSub_self_append _ _

/-- Witness for C7 at a concrete query with an empty corpus. -/
theorem get_prompt_spec_witness :
    hasSub ("English" : String).data
      (get_prompt_default [] "Short" "English" "Investment").data = true :=
  (get_prompt_spec [] "Short" "English" "Investment" (Or.inl rfl)).2.2.2.2.2.2

/-! ## Claim C4: split/join lemmas -/

/-- Splitting never yields an empty list of lines. -/
theorem splitNl_ne_nil (s : List Char) : splitNl s ≠ [] := by
  cases s with
  | nil => simp [splitNl]
  | cons c rest =>
    simp only [splitNl]
    by_cases h : c = '\n'
    · simp [h]
    · rw [if_neg h]
      cases splitNl rest <;> simp

/-- Lines produced by splitting contain no newline. -/
theorem nl_not_mem_splitNl (s : List Char) : ∀ l ∈ splitNl s, '\n' ∉ l := by
  induction s with
  | nil =>
    intro l hl
    simp only [splitNl, List.mem_singleton] at hl
    simp [hl]
  | cons c rest ih =>
    intro l hl
    simp only [splitNl] at hl
    by_cases h : c = '\n'
    · rw [if_pos h] at hl
      rcases List.mem_cons.mp hl with h1 | h1
      · simp [h1]
      · exact ih l h1
    · rw [if_neg h] at hl
      cases hsp : splitNl rest with
      | nil => exact absurd hsp (splitNl_ne_nil rest)
      | cons l0 ls =>
        rw [hsp] at hl
        rcases List.mem_cons.mp hl with h1 | h1
        · subst h1
          intro hmem
          rcases List.mem_cons.mp hmem with h2 | h2
          · exact h h2.symm
          · exact ih l0 (by rw [hsp]; exact List.mem_cons_self _ _) h2
        · exact ih l (by rw [hsp]; exact List.mem_cons_of_mem _ h1)

/-- Joining undoes splitting. -/
theorem joinNl_splitNl (s : List Char) : joinNl (splitNl s) = s := by
  induction s with
  | nil => rfl
  | cons c rest ih =>
    simp only [splitNl]
    by_cases h : c = '\n'
    · rw [if_pos h]
      cases hsp : splitNl rest with
      | nil => exact absurd hsp (splitNl_ne_nil rest)
      | cons l0 ls =>
        rw [hsp] at ih
        simp only [joinNl, h]
        simpa using ih
    · rw [if_neg h]
      cases hsp : splitNl rest with
      | nil => exact absurd hsp (splitNl_ne_nil rest)
      | cons l0 ls =>
        rw [hsp] at ih
        cases ls with
        | nil => simp only [joinNl] at ih ⊢; rw [ih]
        | cons m ms => simp only [joinNl] at ih ⊢; rw [List.cons_append, ih]

/-- A newline-free text is a single line. -/
theorem splitNl_nlfree (l : List Char) (h : '\n' ∉ l) : splitNl l = [l] := by
  induction l with
  | nil => rfl
  | cons c rest ih =>
    have hc : ¬ c = '\n' := fun hc => h (by simp [hc])
    have hrest : '\n' ∉ rest := fun hm => h (List.mem_cons_of_mem _ hm)
    simp only [splitNl]
    rw [if_neg hc, ih hrest]

/-- Splitting at an explicit first newline. -/
theorem splitNl_append_nl (l r : List Char) (h : '\n' ∉ l) :
    splitNl (l ++ '\n' :: r) = l :: splitNl r := by
  induction l with
  | nil => simp [splitNl]
  | cons c l' ih =>
    have hc : ¬ c = '\n' := fun hc => h (by simp [hc])
    have hl' : '\n' ∉ l' := fun hm => h (List.mem_cons_of_mem _ hm)
    show splitNl (c :: (l' ++ '\n' :: r)) = (c :: l') :: splitNl r
    simp only [splitNl]
    rw [if_neg hc, ih hl']

/-- Splitting undoes joining of a non-empty list of newline-free lines. -/
theorem splitNl_joinNl (M : List (List Char)) (hne : M ≠ [])
    (hnl : ∀ l ∈ M, '\n' ∉ l) : splitNl (joinNl M) = M := by
  induction M with
  | nil => exact absurd rfl hne
  | cons l ls ih =>
    cases ls with
    | nil => exact splitNl_nlfree l (hnl l (by simp))
    | cons m ms =>
      have hj : joinNl (l :: m :: ms) = l ++ '\n' :: joinNl (m :: ms) := rfl
      rw [hj, splitNl_append_nl l _ (hnl l (by simp)),
        ih (by simp) (fun x hx => hnl x (List.mem_cons_of_mem _ hx))]

/-- Every position where a text ends inside a newline: decompose at the first
newline. -/
theorem exists_nl_split (u : List Char) (h : '\n' ∈ u) :
    ∃ l r, u = l ++ '\n' :: r ∧ '\n' ∉ l := by
  induction u with
  | nil => simp at h
  | cons c rest ih =>
    by_cases hc : c = '\n'
    · exact ⟨[], rest, by simp [hc], by simp⟩
    · have hrest : '\n' ∈ rest := by
        rcases List.mem_cons.mp h with h1 | h1
        · exact absurd h1.symm hc
        · exact h1
      obtain ⟨l, r, hu, hl⟩ := ih hrest
      exact ⟨c :: l, r, by rw [List.cons_append, hu],
        fun hm => (List.mem_cons.mp hm).elim (fun h2 => hc h2.symm) hl⟩

/-! ## Claim C4: strip lemmas -/

/-- The head surviving a `dropWhile` fails the predicate. -/
theorem dropWhile_head_false (p : Char → Bool) (s : List Char) :
    ∀ c t, s.dropWhile p = c :: t → p c = false := by
  induction s with
  | nil => intro c t h; simp at h
  | cons a s' ih =>
    intro c t h
    rw [List.dropWhile_cons] at h
    by_cases hp : p a = true
    · rw [if_pos hp] at h
      exact ih c t h
    · rw [if_neg hp] at h
      cases h
      simpa using hp

/-- A list whose head fails the predicate is fixed by `dropWhile`. -/
theorem dropWhile_fixed (p : Char → Bool) (s : List Char)
    (h : ∀ c t, s = c :: t → p c = false) : s.dropWhile p = s := by
  cases s with
  | nil => rfl
  | cons a s' => rw [List.dropWhile_cons, if_neg (by simp [h a s' rfl])]

/-- Dropping while a predicate holds removes characters only at the front. -/
theorem exists_dropWhile_eq_append (p : Char → Bool) (s : List Char) :
    ∃ a, s = a ++ s.dropWhile p := by
  induction s with
  | nil => exact ⟨[], rfl⟩
  | cons c s' ih =>
    by_cases hp : p c = true
    · obtain ⟨a, ha⟩ := ih
      refine ⟨c :: a, ?_⟩
      rw [List.dropWhile_cons, if_pos hp, List.cons_append, ← ha]
    · exact ⟨[], by rw [List.dropWhile_cons, if_neg hp]; rfl⟩

/-- Dropping while a predicate holds is idempotent. -/
theorem dropWhile_idem (p : Char → Bool) (s : List Char) :
    (s.dropWhile p).dropWhile p = s.dropWhile p :=
  dropWhile_fixed _ _ (dropWhile_head_false _ s)

/-- Left strip is idempotent. -/
theorem lstrip_idem (s : List Char) : lstrip (lstrip s) = lstrip s :=
  dropWhile_idem _ s

/-- Right strip removes a suffix. -/
theorem rstrip_eq_append (s : List Char) : ∃ b, s = rstrip s ++ b := by
  obtain ⟨a, ha⟩ := exists_dropWhile_eq_append isPySpace s.reverse
  refine ⟨a.reverse, ?_⟩
  have h := congrArg List.reverse ha
  simpa [rstrip] using h

/-- Right strip is idempotent. -/
theorem rstrip_idem (s : List Char) : rstrip (rstrip s) = rstrip s := by
  unfold rstrip
  rw [List.reverse_reverse, dropWhile_idem]

/-- The head of a left-stripped list is not whitespace. -/
theorem lstrip_head_false (s : List Char) :
    ∀ c t, lstrip s = c :: t → isPySpace c = false :=
  dropWhile_head_false _ _

/-- The last character of a right-stripped list is not whitespace. -/
theorem rstrip_last_false (s : List Char) :
    ∀ c t, (rstrip s).reverse = c :: t → isPySpace c = false := by
  intro c t h
  rw [rstrip, List.reverse_reverse] at h
  exact dropWhile_head_false _ _ c t h

/-- Right-stripping keeps a list left-stripped. -/
theorem lstrip_rstrip_of_lstrip_fixed (s : List Char) (h : lstrip s = s) :
    lstrip (rstrip s) = rstrip s := by
  apply dropWhile_fixed
  intro c t hct
  obtain ⟨b, hb⟩ := rstrip_eq_append s
  rw [hct] at hb
  have hs : s = c :: (t ++ b) := by simpa using hb
  exact lstrip_head_false s c (t ++ b) (by rw [h, hs])

/-- Python strip is idempotent. -/
theorem pstrip_idem (s : List Char) : pstrip (pstrip s) = pstrip s := by
  unfold pstrip
  rw [lstrip_rstrip_of_lstrip_fixed (lstrip s) (lstrip_idem s), rstrip_idem]

/-- Stripping only removes characters. -/
theorem mem_pstrip (s : List Char) (x : Char) (h : x ∈ pstrip s) : x ∈ s := by
  simp only [pstrip, rstrip, lstrip] at h
  rw [List.mem_reverse] at h
  have h1 := (List.dropWhile_sublist _).subset h
  rw [List.mem_reverse] at h1
  exact (List.dropWhile_sublist _).subset h1

/-- A list with non-whitespace ends is fixed by strip. -/
theorem pstrip_fixed (s : List Char)
    (h1 : ∀ c t, s = c :: t → isPySpace c = false)
    (h2 : ∀ c t, s.reverse = c :: t → isPySpace c = false) :
    pstrip s = s := by
  unfold pstrip
  have hl : lstrip s = s := dropWhile_fixed _ _ h1
  rw [hl]
  unfold rstrip
  rw [dropWhile_fixed _ _ h2, List.reverse_reverse]

/-- The head of a stripped list is not whitespace. -/
theorem pstrip_head_false (s : List Char) :
    ∀ c t, pstrip s = c :: t → isPySpace c = false := by
  intro c t h
  obtain ⟨b, hb⟩ := rstrip_eq_append (lstrip s)
  have h' : rstrip (lstrip s) = c :: t := h
  rw [h'] at hb
  have hs : lstrip s = c :: (t ++ b) := by simpa using hb
  exact lstrip_head_false s c (t ++ b) hs

/-- The last character of a stripped list is not whitespace. -/
theorem pstrip_rev_head_false (s : List Char) :
    ∀ c t, (pstrip s).reverse = c :: t → isPySpace c = false := by
  intro c t h
  exact rstrip_last_false (lstrip s) c t h

/-- A strip fixed point is fixed by both one-sided strips. -/
theorem pstrip_eq_self_parts (s : List Char) (h : pstrip s = s) :
    lstrip s = s ∧ rstrip s = s := by
  obtain ⟨a, ha⟩ := exists_dropWhile_eq_append isPySpace s
  obtain ⟨b, hb⟩ := rstrip_eq_append (lstrip s)
  have hb' : lstrip s = s ++ b := by
    rw [hb]
    have : rstrip (lstrip s) = s := h
    rw [this]
  have h1 : s.length = a.length + (lstrip s).length := by
    have := congrArg List.length ha
    simpa [List.length_append, lstrip] using this
  have h2 : (lstrip s).length = s.length + b.length := by
    have := congrArg List.length hb'
    simpa [List.length_append] using this
  have ha0 : a = [] := List.length_eq_zero.mp (by omega)
  have hl : lstrip s = s := by
    rw [ha0, List.nil_append] at ha
    exact ha.symm
  refine ⟨hl, ?_⟩
  calc rstrip s = rstrip (lstrip s) := by rw [hl]
    _ = s := h

/-! ## Claim C4: substring monotonicity -/

/-- The empty needle occurs everywhere. -/
theorem hasSub_nil_needle (t : List Char) : hasSub [] t = true := by
  induction t with
  | nil => rfl
  | cons c t' ih => simp [hasSub, lstarts]

/-- A prefix match survives appending on the right. -/
theorem lstarts_append_right (w : List Char) :
    ∀ t b : List Char, lstarts w t = true → lstarts w (t ++ b) = true := by
  induction w with
  | nil => intro t b _; rfl
  | cons x xs ih =>
    intro t b h
    cases t with
    | nil => simp [lstarts] at h
    | cons y ys =>
      simp only [lstarts, Bool.and_eq_true] at h
      simp only [List.cons_append, lstarts, Bool.and_eq_true]
      exact ⟨h.1, ih ys b h.2⟩

/-- A substring occurrence survives appending on the right. -/
theorem hasSub_append_left (w : List Char) :
    ∀ t b : List Char, hasSub w t = true → hasSub w (t ++ b) = true := by
  intro t
  induction t with
  | nil =>
    intro b h
    have hw : w = [] := by
      cases w with
      | nil => rfl
      | cons x xs => simp [hasSub, lstarts] at h
    rw [hw]
    exact hasSub_nil_needle b
  | cons c t' ih =>
    intro b h
    simp only [hasSub, Bool.or_eq_true] at h
    rcases h with h | h
    · have h2 := lstarts_append_right w (c :: t') b h
      simp only [List.cons_append] at h2 ⊢
      simp [hasSub, h2]
    · have h2 := ih b h
      simp only [List.cons_append]
      simp [hasSub, h2]

/-- A substring of a contiguous slice occurs in the whole. -/
theorem hasSub_slice (w m a b s : List Char) (hm : hasSub w m = true)
    (hs : s = a ++ m ++ b) : hasSub w s = true := by
  rw [hs, List.append_assoc]
  exact hasSub_append_right _ _ _ (hasSub_append_left _ _ _ hm)

/-- Stripping yields a contiguous slice of the original. -/
theorem pstrip_slice (s : List Char) : ∃ a b, s = a ++ pstrip s ++ b := by
  obtain ⟨a, ha⟩ := exists_dropWhile_eq_append isPySpace s
  obtain ⟨b, hb⟩ := rstrip_eq_append (lstrip s)
  refine ⟨a, b, ?_⟩
  rw [List.append_assoc]
  show s = a ++ (pstrip s ++ b)
  conv_lhs => rw [ha]
  congr 1

/-! ## Claim C4: collapse lemmas -/

/-- Unfolding equation for the three-character window of `collapseNl`. -/
theorem collapseNl_cons3 (a b c : Char) (rest : List Char) :
    collapseNl (a :: b :: c :: rest) =
      if a = '\n' ∧ b = '\n' ∧ c = '\n' then collapseNl (b :: c :: rest)
      else a :: collapseNl (b :: c :: rest) := by
  rfl

/-- A non-newline head is always kept by the collapse. -/
theorem collapseNl_cons_keep (x : Char) (t : List Char) (hx : ¬ x = '\n') :
    collapseNl (x :: t) = x :: collapseNl t := by
  match t with
  | [] => rfl
  | [y] => rfl
  | y :: z :: zs =>
    rw [collapseNl_cons3, if_neg (fun hc => hx hc.1)]

/-- A newline not followed by two more newlines is kept by the collapse. -/
theorem collapseNl_nl_keep (t : List Char) (ht : lstarts ['\n', '\n'] t = false) :
    collapseNl ('\n' :: t) = '\n' :: collapseNl t := by
  match t with
  | [] => rfl
  | [y] => rfl
  | y :: z :: zs =>
    have hny : ¬ (y = '\n' ∧ z = '\n') := by
      intro hyz
      rw [hyz.1, hyz.2] at ht
      simp [lstarts] at ht
    rw [collapseNl_cons3, if_neg (fun hc => hny ⟨hc.2.1, hc.2.2⟩)]

/-- The collapse keeps the head of a window that is not all newlines. -/
theorem collapseNl_head_keep (x y : Char) (xs : List Char)
    (h : ¬ (x = '\n' ∧ y = '\n')) :
    ∃ t, collapseNl (x :: y :: xs) = x :: t := by
  match xs with
  | [] => exact ⟨[y], rfl⟩
  | z :: zs =>
    rw [collapseNl_cons3, if_neg (fun hc => h ⟨hc.1, hc.2.1⟩)]
    exact ⟨_, rfl⟩

/-- The collapse of a newline-headed text stays newline-headed. -/
theorem collapseNl_nl_head : ∀ xs : List Char, ∃ t, collapseNl ('\n' :: xs) = '\n' :: t
  | [] => ⟨[], rfl⟩
  | [y] => ⟨[y], rfl⟩
  | y :: z :: zs => by
    by_cases h : y = '\n' ∧ z = '\n'
    · obtain ⟨t, ht⟩ := collapseNl_nl_head (z :: zs)
      refine ⟨t, ?_⟩
      rw [collapseNl_cons3, if_pos ⟨rfl, h.1, h.2⟩, h.1]
      exact ht
    · rw [collapseNl_cons3, if_neg (fun hc => h ⟨hc.2.1, hc.2.2⟩)]
      exact ⟨_, rfl⟩

/-- The collapsed text never contains three consecutive newlines. -/
theorem collapseNl_no_triple : ∀ s : List Char, hasSub tripleNl (collapseNl s) = false
  | [] => rfl
  | [c] => by simp [collapseNl, hasSub, lstarts, tripleNl]
  | [c, d] => by simp [collapseNl, hasSub, lstarts, tripleNl]
  | a :: b :: c :: rest => by
    have ih := collapseNl_no_triple (b :: c :: rest)
    rw [collapseNl_cons3]
    by_cases h : a = '\n' ∧ b = '\n' ∧ c = '\n'
    · rw [if_pos h]
      exact ih
    · rw [if_neg h]
      have hstart : lstarts tripleNl (a :: collapseNl (b :: c :: rest)) = false := by
        by_cases ha : a = '\n'
        · subst ha
          by_cases hb : b = '\n'
          · subst hb
            have hc : ¬ c = '\n' := fun hc => h ⟨rfl, rfl, hc⟩
            have hY : collapseNl ('\n' :: c :: rest)
                = '\n' :: collapseNl (c :: rest) := by
              apply collapseNl_nl_keep
              simp [lstarts, Ne.symm hc]
            have hZ : collapseNl (c :: rest) = c :: collapseNl rest :=
              collapseNl_cons_keep c rest hc
            rw [hY, hZ]
            simp [tripleNl, lstarts, Ne.symm hc]
          · obtain ⟨t, ht⟩ := collapseNl_head_keep b c rest (fun hc => hb hc.1)
            rw [ht]
            simp [tripleNl, lstarts, Ne.symm hb]
        · simp [tripleNl, lstarts, Ne.symm ha]
      simp [hasSub, hstart, ih]

/-- A text without three consecutive newlines is fixed by the collapse. -/
theorem collapseNl_fixed : ∀ s : List Char,
    hasSub tripleNl s = false → collapseNl s = s
  | [], _ => rfl
  | [c], _ => rfl
  | [c, d], _ => rfl
  | a :: b :: c :: rest, h => by
    have hsplit : lstarts tripleNl (a :: b :: c :: rest) = false ∧
        hasSub tripleNl (b :: c :: rest) = false := by
      have : hasSub tripleNl (a :: b :: c :: rest)
          = (lstarts tripleNl (a :: b :: c :: rest) ||
             hasSub tripleNl (b :: c :: rest)) := rfl
      rw [this] at h
      exact Bool.or_eq_false_iff.mp h
    have hall : ¬ (a = '\n' ∧ b = '\n' ∧ c = '\n') := by
      intro hc
      rw [hc.1, hc.2.1, hc.2.2] at hsplit
      simp [tripleNl, lstarts] at hsplit
    rw [collapseNl_cons3, if_neg hall, collapseNl_fixed (b :: c :: rest) hsplit.2]

/-! ## Claim C4: preservation of stripped lines -/

/-- A newline-free text contains no newline triple. -/
theorem no_triple_of_nl_not_mem (u : List Char) (h : '\n' ∉ u) :
    hasSub tripleNl u = false := by
  induction u with
  | nil => rfl
  | cons c t ih =>
    have hc : ¬ c = '\n' := fun hc => h (by simp [hc])
    have ht : '\n' ∉ t := fun hm => h (List.mem_cons_of_mem _ hm)
    have hb : ('\n' == c) = false := beq_eq_false_iff_ne.mpr (Ne.symm hc)
    have h1 : lstarts tripleNl (c :: t) = false := by
      simp [tripleNl, lstarts, hb]
    have h2 : hasSub tripleNl (c :: t)
        = (lstarts tripleNl (c :: t) || hasSub tripleNl t) := rfl
    rw [h2, h1, ih ht]
    rfl

/-- Stripped lines through a leading newline. -/
theorem linesStripped_cons_nl (u : List Char) :
    (∀ l ∈ splitNl ('\n' :: u), pstrip l = l) ↔
      (∀ l ∈ splitNl u, pstrip l = l) := by
  have hsp : splitNl ('\n' :: u) = [] :: splitNl u := by simp [splitNl]
  rw [hsp]
  constructor
  · intro h l hl
    exact h l (List.mem_cons_of_mem _ hl)
  · intro h l hl
    rcases List.mem_cons.mp hl with h1 | h1
    · rw [h1]; rfl
    · exact h l h1

/-- Stripped lines through a first-newline decomposition. -/
theorem linesStripped_append_nl (l r : List Char) (hl : '\n' ∉ l) :
    (∀ x ∈ splitNl (l ++ '\n' :: r), pstrip x = x) ↔
      (pstrip l = l ∧ ∀ x ∈ splitNl r, pstrip x = x) := by
  rw [splitNl_append_nl l r hl]
  constructor
  · intro h
    exact ⟨h l (List.mem_cons_self _ _),
      fun x hx => h x (List.mem_cons_of_mem _ hx)⟩
  · rintro ⟨h1, h2⟩ x hx
    rcases List.mem_cons.mp hx with hx1 | hx1
    · rw [hx1]; exact h1
    · exact h2 x hx1

/-- Collapsing distributes over a newline-free prefix. -/
theorem collapseNl_append_nlfree (l r : List Char) (h : '\n' ∉ l) :
    collapseNl (l ++ r) = l ++ collapseNl r := by
  induction l with
  | nil => rfl
  | cons c l' ih =>
    have hc : ¬ c = '\n' := fun hc => h (by simp [hc])
    have hl' : '\n' ∉ l' := fun hm => h (List.mem_cons_of_mem _ hm)
    rw [List.cons_append, collapseNl_cons_keep c _ hc, ih hl', List.cons_append]

/-- Collapsing newline runs keeps every line stripped. -/
theorem collapseNl_linesStripped (u : List Char)
    (h : ∀ l ∈ splitNl u, pstrip l = l) :
    ∀ x ∈ splitNl (collapseNl u), pstrip x = x := by
  by_cases hmem : '\n' ∈ u
  · obtain ⟨l, r, hu, hl⟩ := exists_nl_split u hmem
    subst hu
    have hlr := (linesStripped_append_nl l r hl).mp h
    rw [collapseNl_append_nlfree l ('\n' :: r) hl]
    by_cases hrr : lstarts ['\n', '\n'] r = true
    · obtain ⟨r2, hr2⟩ : ∃ r2, r = '\n' :: '\n' :: r2 := by
        cases r with
        | nil => simp [lstarts] at hrr
        | cons c t =>
          cases t with
          | nil => simp [lstarts] at hrr
          | cons d t2 =>
            have hcd : '\n' = c ∧ '\n' = d := by
              simpa [lstarts] using hrr
            exact ⟨t2, by rw [← hcd.1, ← hcd.2]⟩
      subst hr2
      have hcoll : collapseNl ('\n' :: '\n' :: '\n' :: r2)
          = collapseNl ('\n' :: '\n' :: r2) := by
        rw [collapseNl_cons3, if_pos ⟨rfl, rfl, rfl⟩]
      rw [hcoll, ← collapseNl_append_nlfree l ('\n' :: '\n' :: r2) hl]
      apply collapseNl_linesStripped (l ++ '\n' :: '\n' :: r2)
      refine (linesStripped_append_nl l ('\n' :: r2) hl).mpr ⟨hlr.1, ?_⟩
      exact (linesStripped_cons_nl ('\n' :: r2)).mp hlr.2
    · have hrr' : lstarts ['\n', '\n'] r = false := by
        revert hrr
        cases lstarts ['\n', '\n'] r <;> simp
      rw [collapseNl_nl_keep r hrr']
      refine (linesStripped_append_nl l (collapseNl r) hl).mpr ⟨hlr.1, ?_⟩
      exact collapseNl_linesStripped r hlr.2
  · rw [collapseNl_fixed u (no_triple_of_nl_not_mem u hmem)]
    exact h
termination_by u.length
decreasing_by
  all_goals subst hu
  all_goals simp_all [List.length_append]
  all_goals omega

/-- Left-stripping keeps every line stripped. -/
theorem lstrip_linesStripped (u : List Char)
    (h : ∀ l ∈ splitNl u, pstrip l = l) :
    ∀ x ∈ splitNl (lstrip u), pstrip x = x := by
  induction u with
  | nil => simpa using h
  | cons c u' ih =>
    by_cases hsp : isPySpace c = true
    · have hls : lstrip (c :: u') = lstrip u' := by
        simp [lstrip, List.dropWhile_cons, hsp]
      rw [hls]
      by_cases hc : c = '\n'
      · subst hc
        exact ih ((linesStripped_cons_nl u').mp h)
      · exfalso
        cases hsp2 : splitNl u' with
        | nil => exact absurd hsp2 (splitNl_ne_nil u')
        | cons l0 ls =>
          have hsp3 : splitNl (c :: u') = (c :: l0) :: ls := by
            simp only [splitNl]
            rw [if_neg hc, hsp2]
          have hline := h (c :: l0) (by rw [hsp3]; exact List.mem_cons_self _ _)
          have hhd := pstrip_head_false (c :: l0) c l0 hline
          simp [hsp] at hhd
    · have hls : lstrip (c :: u') = c :: u' := by
        simp [lstrip, List.dropWhile_cons, hsp]
      rw [hls]
      exact h

/-- Dropping while a predicate holds distributes over an append. -/
theorem dropWhile_append_cases (p : Char → Bool) (a b : List Char) :
    List.dropWhile p (a ++ b)
      = if List.dropWhile p a = [] then List.dropWhile p b
        else List.dropWhile p a ++ b := by
  induction a with
  | nil => simp
  | cons c a' ih =>
    by_cases hp : p c = true
    · simp only [List.cons_append, List.dropWhile_cons, hp, if_true, ih]
    · have hpf : p c = false := by
        revert hp
        cases p c <;> simp
      simp [List.dropWhile_cons, hpf]

/-- Right strip over an append. -/
theorem rstrip_append_cases (x y : List Char) :
    rstrip (x ++ y) = if rstrip y = [] then rstrip x else x ++ rstrip y := by
  by_cases hc : List.dropWhile isPySpace y.reverse = []
  · have h1 : rstrip y = [] := by simp [rstrip, hc]
    rw [if_pos h1]
    show (List.dropWhile isPySpace (x ++ y).reverse).reverse = rstrip x
    rw [List.reverse_append, dropWhile_append_cases, if_pos hc]
    rfl
  · have h1 : ¬ rstrip y = [] := by simp [rstrip, hc]
    rw [if_neg h1]
    show (List.dropWhile isPySpace (x ++ y).reverse).reverse = x ++ rstrip y
    rw [List.reverse_append, dropWhile_append_cases, if_neg hc,
      List.reverse_append, List.reverse_reverse]
    rfl

/-- Right-stripping keeps every line stripped. -/
theorem rstrip_linesStripped (u : List Char)
    (h : ∀ l ∈ splitNl u, pstrip l = l) :
    ∀ x ∈ splitNl (rstrip u), pstrip x = x := by
  by_cases hmem : '\n' ∈ u
  · obtain ⟨l, r, hu, hl⟩ := exists_nl_split u hmem
    subst hu
    have hlr := (linesStripped_append_nl l r hl).mp h
    have hsplit : l ++ '\n' :: r = l ++ (['\n'] ++ r) := by simp
    rw [hsplit, rstrip_append_cases l (['\n'] ++ r)]
    by_cases hr0 : rstrip (['\n'] ++ r) = []
    · rw [if_pos hr0]
      have hpl : rstrip l = l := (pstrip_eq_self_parts l hlr.1).2
      rw [hpl]
      intro x hx
      rw [splitNl_nlfree l hl] at hx
      rw [List.mem_singleton.mp hx]
      exact hlr.1
    · rw [if_neg hr0]
      have hr1 := rstrip_append_cases ['\n'] r
      by_cases hr2 : rstrip r = []
      · rw [if_pos hr2] at hr1
        have hnl : rstrip ['\n'] = ([] : List Char) := by decide
        rw [hnl] at hr1
        exact absurd hr1 hr0
      · rw [if_neg hr2] at hr1
        rw [hr1]
        have hcons : ['\n'] ++ rstrip r = '\n' :: rstrip r := rfl
        rw [hcons]
        exact (linesStripped_append_nl l (rstrip r) hl).mpr
          ⟨hlr.1, rstrip_linesStripped r hlr.2⟩
  · have h1 : pstrip u = u := h u (by rw [splitNl_nlfree u hmem]; simp)
    rw [(pstrip_eq_self_parts u h1).2]
    exact h
termination_by u.length
decreasing_by
  all_goals subst hu
  all_goals simp_all [List.length_append]
  all_goals omega

/-- Stripping the whole text keeps every line stripped. -/
theorem pstrip_linesStripped (u : List Char)
    (h : ∀ l ∈ splitNl u, pstrip l = l) :
    ∀ x ∈ splitNl (pstrip u), pstrip x = x :=
  rstrip_linesStripped (lstrip u) (lstrip_linesStripped u h)

/-- Mapping a function that fixes every member is the identity. -/
theorem map_id_of_forall (f : List Char → List Char) (l : List (List Char))
    (h : ∀ x ∈ l, f x = x) : l.map f = l := by
  induction l with
  | nil => rfl
  | cons a t ih =>
    rw [List.map_cons, h a (by simp), ih (fun x hx => h x (List.mem_cons_of_mem _ hx))]

/-! ## Claim C4: assembly -/

/-- The four structural properties of the cleaner output: every line is
stripped, no three consecutive newlines survive, the whole text is stripped,
and cleaning is idempotent. -/
theorem cleanChars_props (s : List Char) :
    (∀ l ∈ splitNl (cleanChars s), pstrip l = l) ∧
    hasSub tripleNl (cleanChars s) = false ∧
    pstrip (cleanChars s) = cleanChars s ∧
    cleanChars (cleanChars s) = cleanChars s := by
  have hMne : (splitNl s).map pstrip ≠ [] := by
    intro hM
    exact splitNl_ne_nil s (List.map_eq_nil.mp hM)
  have hMnl : ∀ l ∈ (splitNl s).map pstrip, '\n' ∉ l := by
    intro l hlm
    obtain ⟨l0, hl0, rfl⟩ := List.mem_map.mp hlm
    intro hnl
    exact nl_not_mem_splitNl s l0 hl0 (mem_pstrip l0 '\n' hnl)
  have hU : splitNl (joinNl ((splitNl s).map pstrip)) = (splitNl s).map pstrip :=
    splitNl_joinNl _ hMne hMnl
  have hLSU : ∀ l ∈ splitNl (joinNl ((splitNl s).map pstrip)), pstrip l = l := by
    rw [hU]
    intro l hlm
    obtain ⟨l0, hl0, rfl⟩ := List.mem_map.mp hlm
    exact pstrip_idem l0
  have hLSC := collapseNl_linesStripped _ hLSU
  have hLST : ∀ l ∈ splitNl (cleanChars s), pstrip l = l :=
    pstrip_linesStripped _ hLSC
  have hNTC := collapseNl_no_triple (joinNl ((splitNl s).map pstrip))
  have hNT : hasSub tripleNl (cleanChars s) = false := by
    cases hb : hasSub tripleNl (cleanChars s) with
    | false => rfl
    | true =>
      obtain ⟨a, b, hab⟩ :=
        pstrip_slice (collapseNl (joinNl ((splitNl s).map pstrip)))
      have hthis := hasSub_slice tripleNl (cleanChars s) a b _ hb hab
      rw [hNTC] at hthis
      simp at hthis
  have hPS : pstrip (cleanChars s) = cleanChars s := pstrip_idem _
  refine ⟨hLST, hNT, hPS, ?_⟩
  show pstrip (collapseNl (joinNl ((splitNl (cleanChars s)).map pstrip)))
      = cleanChars s
  rw [map_id_of_forall pstrip _ hLST, joinNl_splitNl, collapseNl_fixed _ hNT, hPS]

/-- C4: `clean_text` is idempotent; in its output every line is individually
trimmed, no run of three or more newlines survives (all collapsed to two),
and the whole result carries no leading or trailing whitespace. -/
theorem clean_text_spec (s : String) :
    clean_text (clean_text s) = clean_text s ∧
    (∀ l ∈ splitNl (clean_text s).data, pstrip l = l) ∧
    hasSub tripleNl (clean_text s).data = false ∧
    pstrip (clean_text s).data = (clean_text s).data := by
  obtain ⟨h1, h2, h3, h4⟩ := cleanChars_props s.data
  exact ⟨congrArg String.mk h4, h1, h2, h3⟩

end LPG
